import Mathlib

/-!
Shallow embedding of the mdbook-hide-feature preprocessor core
(src/main.rs) over `List Char`, together with theorems checking the
natural-language specification against it.

Embedded functions (named after the source where Lean allows):
`filter_features`, `replace_all`, `find_links`, `Link.from_capture`,
`Link.render_with_path`, plus the helpers they need.  Machine strings are
modelled as `List Char`; byte offsets as `Nat` indices into the character
sequence; the lazily compiled directive regex as a direct recursive
scanner with the same leftmost-first semantics; the filesystem as a
function from paths to `Except IOErr` contents.
-/

/-- Unicode White_Space test, the set matched by the regex class `\s`
and by Rust's `char::is_whitespace` (used by `split_whitespace`). -/
def isWs (c : Char) : Bool :=
  c == ' ' || c == '\t' || c == '\n' || c == '\x0b' || c == '\x0c' || c == '\r' ||
  c == '\x85' || c == '\xa0' || c.val == 0x1680 ||
  (0x2000 ≤ c.val && c.val ≤ 0x200a) ||
  c.val == 0x2028 || c.val == 0x2029 || c.val == 0x202f || c.val == 0x205f ||
  c.val == 0x3000

/-- ASCII alphanumeric test, the set matched by the regex class `[a-zA-Z0-9]`. -/
def isAlnum (c : Char) : Bool :=
  c.isAlpha || c.isDigit

/-- The character class `[a-zA-Z0-9\s_.\-:/\\]` of the directive regex's
target group. -/
def isTargetClass (c : Char) : Bool :=
  isAlnum c || isWs c || c == '_' || c == '.' || c == '-' || c == ':' ||
  c == '/' || c == '\\'

/-- Split a character list into groups, each group ending just after a
newline character; the model of Rust's `str::split_inclusive('\n')`. -/
def splitInclusive : List Char → List (List Char)
  | [] => []
  | c :: rest =>
    match splitInclusive rest with
    | [] => [[c]]
    | grp :: grps =>
      if c = '\n' then [c] :: grp :: grps else (c :: grp) :: grps

/-- Remove one trailing newline, and after it one trailing carriage
return, from a group; the per-item map of Rust's `str::lines`. -/
def stripNl (l : List Char) : List Char :=
  if l.getLast? = some '\n' then
    if l.dropLast.getLast? = some '\r' then l.dropLast.dropLast else l.dropLast
  else l

/-- The model of Rust's `str::lines`: split at newlines, the final line
ending optional, a carriage return before a line feed also stripped. -/
def rustLines (s : List Char) : List (List Char) :=
  (splitInclusive s).map stripNl

/-- Matcher of the compiled pattern `re_start` of `filter_features`,
built from the format string `^\s*#\s*\[cfg\(feature = "NAME"\)\]`:
optional leading whitespace, a hash, optional whitespace, then the
literal attribute text naming the feature.  `Regex::is_match` with the
leading anchor succeeds exactly when this prefix shape is present.
Modelling note: the source interpolates the feature name into
`Regex::new(..).unwrap()`, so this literal reading is exact only for
names free of regex metacharacters — in particular for the fixed name
`test`, the only one the resolver passes; a name that is not a valid
regex makes the source panic at `unwrap`, a partiality this matcher
does not carry (see the brace-depth theorems for that finding). -/
def re_start (feature_name : List Char) (line : List Char) : Bool :=
  match line.dropWhile (fun c => isWs c) with
  | '#' :: r2 =>
    (("[cfg(feature = \"".data ++ feature_name ++ "\")]".data)).isPrefixOf
      (r2.dropWhile (fun c => isWs c))
  | _ => false

/-- Loop body of `filter_features` over the lines of the input: the
`skip` flag and `brace_count` thread through exactly as the mutable
locals of the source do, and each line is emitted followed by a
newline, prefixed with `"# "` while inside a suppressed block.
Modelling note: the source's `brace_count` is inferred `usize` (it
accumulates `Iterator::count`); the `Int` counter here reproduces the
wrapping release behaviour, whose `== 0` test agrees with `Int` for
every representable input, while the overflow-checked behaviour — the
subtraction panics when the depth would pass below zero — is modelled
separately by `filterLoopChecked`. -/
def filterLoop (feature_name : List Char) :
    List (List Char) → Bool → Int → List Char
  | [], _, _ => []
  | line :: rest, skip, brace_count =>
    if skip then
      let bc1 : Int :=
        if line.contains '\x7b' then brace_count + (line.count '\x7b' : Int)
        else brace_count
      let bc2 : Int :=
        if line.contains '\x7d' then bc1 - (line.count '\x7d' : Int) else bc1
      let skip' : Bool := if bc2 = 0 then false else true
      (('#' :: ' ' :: line) ++ ['\n']) ++ filterLoop feature_name rest skip' bc2
    else if re_start feature_name line then
      (('#' :: ' ' :: line) ++ ['\n']) ++ filterLoop feature_name rest true brace_count
    else
      (line ++ ['\n']) ++ filterLoop feature_name rest false brace_count

/-- Model of `filter_features` from src/main.rs: comment out blocks of
code enclosed in a `#[cfg(feature = "feature_name")]` attribute. -/
def filter_features (contents : List Char) (feature_name : List Char) : List Char :=
  filterLoop feature_name (rustLines contents) false 0

/-- Net brace balance of one line: opening braces minus closing braces,
the amount by which one pass of the skip branch moves `brace_count`. -/
def braceBal (l : List Char) : Int :=
  (l.count '\x7b' : Int) - (l.count '\x7d' : Int)

/-- Loop body of `filter_features` as an overflow-checked build runs
it: `brace_count` is the source's `usize`, and the statement
`brace_count -= line.matches(..).count()` panics — here `none` — when
the closing-brace count exceeds the count so far; the addition cannot
overflow for representable inputs. -/
def filterLoopChecked (feature_name : List Char) :
    List (List Char) → Bool → Nat → Option (List Char)
  | [], _, _ => some []
  | line :: rest, skip, brace_count =>
    if skip then
      let bc1 : Nat :=
        if line.contains '\x7b' then brace_count + line.count '\x7b'
        else brace_count
      if line.contains '\x7d' ∧ bc1 < line.count '\x7d' then none
      else
        let bc2 : Nat :=
          if line.contains '\x7d' then bc1 - line.count '\x7d' else bc1
        let skip' : Bool := if bc2 = 0 then false else true
        (filterLoopChecked feature_name rest skip' bc2).map
          (fun t => (('#' :: ' ' :: line) ++ ['\n']) ++ t)
    else if re_start feature_name line then
      (filterLoopChecked feature_name rest true brace_count).map
        (fun t => (('#' :: ' ' :: line) ++ ['\n']) ++ t)
    else
      (filterLoopChecked feature_name rest false brace_count).map
        (fun t => (line ++ ['\n']) ++ t)

/-- `filter_features` as an overflow-checked build runs it: `none` is
the panic of the `usize` underflow in `brace_count -= ...`. -/
def filter_features_checked (contents : List Char) (feature_name : List Char) :
    Option (List Char) :=
  filterLoopChecked feature_name (rustLines contents) false 0

/-- Index of the start of the last occurrence of two consecutive closing
braces in a list; the greedy `.*` of the escaped-directive alternative
stops at the last `\x7d\x7d` of the line. -/
def lastDoubleBrace : List Char → Option Nat
  | [] => none
  | c :: rest =>
    match lastDoubleBrace rest with
    | some k => some (k + 1)
    | none => if c = '\x7d' ∧ rest.head? = some '\x7d' then some 0 else none

/-- Attempt the first regex alternative `\\\{\{\#.*\}\}` (an escaped
directive) at the head of the given suffix; return the match length.
`.` excludes the newline, and the greedy star reaches the last double
closing brace of the line. -/
def tryAlt1 (u : List Char) : Option Nat :=
  match u with
  | '\\' :: '\x7b' :: '\x7b' :: '#' :: r =>
    match lastDoubleBrace (r.takeWhile (fun c => c != '\n')) with
    | some k => some (4 + k + 2)
    | none => none
  | _ => none

/-- Attempt the second regex alternative
`\{\{\s*\#([a-zA-Z0-9]+)\s+([a-zA-Z0-9\s_.\-:/\\]+)\s*\}\}` at the head
of the given suffix; return the match length, the kind capture and the
target capture.  Because the closing brace lies outside the target class
while whitespace lies inside it, the backtracking engine's choice is
forced: the match extends over the maximal target-class run, succeeds
exactly when a double closing brace follows it and the run begins with
whitespace and has at least two characters, and the greedy `\s+` takes
`min` of the whitespace run and all but one character of the rest. -/
def tryAlt2 (u : List Char) : Option (Nat × List Char × List Char) :=
  match u with
  | '\x7b' :: '\x7b' :: r1 =>
    let w0 := r1.takeWhile isWs
    match r1.drop w0.length with
    | '#' :: r3 =>
      let K := r3.takeWhile isAlnum
      if K.length = 0 then none
      else
        let r4 := r3.drop K.length
        let R := r4.takeWhile isTargetClass
        let W := (r4.takeWhile isWs).length
        if 1 ≤ W ∧ 2 ≤ R.length ∧ ['\x7d', '\x7d'].isPrefixOf (r4.drop R.length) then
          some (2 + w0.length + 1 + K.length + R.length + 2, K,
            R.drop (min W (R.length - 1)))
        else none
    | _ => none
  | _ => none

/-- What a successful regex match carries: either the escaped
alternative (capture groups one and two unset) or a directive candidate
with its kind and target captures. -/
inductive MatchPayload where
  | escaped : MatchPayload
  | candidate (kind : List Char) (rest : List Char) : MatchPayload
deriving DecidableEq

/-- One match of the directive regex: its half-open character span in
the source and its payload and matched text. -/
structure RawMatch where
  start : Nat
  stop : Nat
  payload : MatchPayload
  text : List Char
deriving DecidableEq

/-- The span `[a, b)` of a character list, the model of slicing
`&s[a..b]`. -/
def extract (s : List Char) (a b : Nat) : List Char :=
  (s.drop a).take (b - a)

/-- Attempt the whole directive regex at position `i` of `s`; the two
alternatives begin with distinct characters, so trying the escaped one
first is exactly the pattern's preference order. -/
def tryMatchAt (s : List Char) (i : Nat) : Option (Nat × MatchPayload) :=
  match tryAlt1 (s.drop i) with
  | some len => some (len, MatchPayload.escaped)
  | none =>
    match tryAlt2 (s.drop i) with
    | some (len, k, rest) => some (len, MatchPayload.candidate k rest)
    | none => none

/-- Leftmost-first scan of `s` from position `i`: emit the match at the
first position where the pattern fits, then continue after it, as
`Regex::captures_iter` does.  The fuel argument only bounds the
recursion; matches are nonempty, so fuel `s.length + 1` never runs
out. -/
def allMatchesGo (s : List Char) : Nat → Nat → List RawMatch
  | 0, _ => []
  | fuel + 1, i =>
    if i < s.length then
      match tryMatchAt s i with
      | some (len, pl) =>
        RawMatch.mk i (i + len) pl (extract s i (i + len)) ::
          allMatchesGo s fuel (i + len)
      | none => allMatchesGo s fuel (i + 1)
    else []

/-- All matches of the directive regex over `s`, in order. -/
def allMatches (s : List Char) : List RawMatch :=
  allMatchesGo s (s.length + 1) 0

/-- The parsed kind of a recognized directive, from src/main.rs. -/
inductive LinkType where
  | IncludeHideTest (path : List Char) : LinkType
deriving DecidableEq

/-- A recognized directive with its span, parsed kind and matched text,
from src/main.rs. -/
structure Link where
  start_index : Nat
  end_index : Nat
  link : LinkType
  link_text : List Char
deriving DecidableEq

/-- First whitespace-separated token of a capture; the model of
`rest.split_whitespace().next()`. -/
def firstWsToken (l : List Char) : Option (List Char) :=
  let t := (l.dropWhile (fun c => isWs c)).takeWhile (fun c => !isWs c)
  if t.length = 0 then none else some t

/-- Model of `Link::from_capture`: an escaped match has no kind or
target capture and yields no link; a candidate yields a link only when
its kind is `includehidetest` and its target capture has a first
whitespace-separated path token. -/
def Link.from_capture (m : RawMatch) : Option Link :=
  let link_type : Option LinkType :=
    match m.payload with
    | MatchPayload.candidate typ rest =>
      match firstWsToken rest with
      | some pth =>
        if typ = "includehidetest".data then some (LinkType.IncludeHideTest pth)
        else none
      | none => none
    | MatchPayload.escaped => none
  link_type.map (fun lnk =>
    { start_index := m.start, end_index := m.stop, link := lnk,
      link_text := m.text })

/-- Model of `find_links` composed with `LinkIter::next`: every regex
match in order, those without a parsed link silently dropped. -/
def find_links (s : List Char) : List Link :=
  (allMatches s).filterMap Link.from_capture

/-- The error classes of a failed file read, as carried by the
`std::io::Error` that `std::fs::read_to_string` produces and `?`
propagates through `anyhow`; the value names the kind only — the
commented-out `chain_err` call in the source is the line that would have
attached the path and the directive text, so neither is attached. -/
inductive IOErr where
  | notFound : IOErr
  | permissionDenied : IOErr
  | invalidData : IOErr
deriving DecidableEq

/-- Model of `Path::join` for the `base.join(pat)` call: an absolute
right side replaces the base, otherwise the two are joined with a
separator. -/
def pathJoin (base p : List Char) : List Char :=
  if p.head? = some '/' then p
  else if base = [] then p
  else if base.getLast? = some '/' then base ++ p
  else base ++ '/' :: p

/-- The path a link's resolution reads. -/
def linkPath : LinkType → List Char
  | LinkType.IncludeHideTest p => p

/-- Model of `Link::render_with_path`: read the target file relative to
the base directory through the filesystem `fs`, propagate its error
unchanged, and on success run `filter_features` with the fixed marker
`test`. -/
def Link.render_with_path (fs : List Char → Except IOErr (List Char))
    (base : List Char) (l : Link) : Except IOErr (List Char) :=
  match l.link with
  | LinkType.IncludeHideTest pat =>
    match fs (pathJoin base pat) with
    | Except.ok contents => Except.ok (filter_features contents "test".data)
    | Except.error e => Except.error e

/-- Loop body of `replace_all`: the accumulated output, the cursor
`previous_end_index` and the remaining links thread through exactly as
in the source's `for` loop; the first resolution error aborts. -/
def replaceLoop (fs : List Char → Except IOErr (List Char))
    (base s : List Char) :
    List Link → Nat → List Char → Except IOErr (List Char)
  | [], previous_end_index, replaced =>
    Except.ok (replaced ++ s.drop previous_end_index)
  | playpen :: rest, previous_end_index, replaced =>
    match playpen.render_with_path fs base with
    | Except.error e => Except.error e
    | Except.ok r =>
      replaceLoop fs base s rest playpen.end_index
        (replaced ++ extract s previous_end_index playpen.start_index ++ r)

/-- Model of `replace_all` from src/main.rs: splice every recognized
directive's rendered content into the source text. -/
def replace_all (fs : List Char → Except IOErr (List Char))
    (base s : List Char) : Except IOErr (List Char) :=
  replaceLoop fs base s (find_links s) 0 []

/-- Modelled from the spec: the splice shape
`prefix0 + R1 + prefix1 + R2 + ... + Rn + suffix`, the prefixes being
the exact source spans between the cursor and the next directive and the
suffix the span from the cursor to the end. -/
def splice (s : List Char) : List Link → List (List Char) → Nat → List Char
  | [], _, cursor => s.drop cursor
  | l :: ls, r :: rs, cursor =>
    extract s cursor l.start_index ++ r ++ splice s ls rs l.end_index
  | _ :: _, [], cursor => s.drop cursor

lemma count_eq_zero_of_not_contains {l : List Char} {c : Char}
    (h : l.contains c = false) : l.count c = 0 := by
  simp at h
  simp [List.count_eq_zero, h]

lemma splitInclusive_groups (s : List Char) :
    ∀ g ∈ splitInclusive s, g ≠ [] ∧ '\n' ∉ g.dropLast := by
  induction s with
  | nil => intro g hg; simp [splitInclusive] at hg
  | cons c rest ih =>
    intro g hg
    rw [splitInclusive] at hg
    rcases hsp : splitInclusive rest with _ | ⟨grp, grps⟩ <;>
      simp only [hsp] at hg
    · simp at hg
      subst hg
      simp
    · have ihg : ∀ x ∈ grp :: grps, x ≠ [] ∧ '\n' ∉ x.dropLast := by
        intro x hx
        exact ih x (by rw [hsp]; exact hx)
      by_cases hc : c = '\n'
      · rw [if_pos hc] at hg
        rcases List.mem_cons.mp hg with hg | hg
        · subst hg; simp
        · exact ihg g hg
      · rw [if_neg hc] at hg
        rcases List.mem_cons.mp hg with hg | hg
        · subst hg
          have hgrp := ihg grp (List.mem_cons_self grp grps)
          refine ⟨by simp, ?_⟩
          rcases grp with _ | ⟨x, xs⟩
          · exact absurd rfl hgrp.1
          · rw [List.dropLast_cons₂]
            intro hmem
            rcases List.mem_cons.mp hmem with h1 | h1
            · exact hc h1.symm
            · exact hgrp.2 h1
        · exact ihg g (List.mem_cons_of_mem grp hg)

lemma rustLines_no_nl (s : List Char) : ∀ l ∈ rustLines s, '\n' ∉ l := by
  intro l hl
  rcases List.mem_map.mp hl with ⟨g, hg, rfl⟩
  have hgs := splitInclusive_groups s g hg
  rw [stripNl]
  split
  · split
    · exact fun hmem => hgs.2 (List.dropLast_subset _ hmem)
    · exact hgs.2
  · next hlast =>
    intro hmem
    have hne : g ≠ [] := hgs.1
    have hsplit := List.dropLast_concat_getLast hne
    rw [← hsplit] at hmem
    rcases List.mem_append.mp hmem with h1 | h1
    · exact hgs.2 h1
    · have hL : g.getLast hne = '\n' := (List.mem_singleton.mp h1).symm
      exact hlast (by rw [List.getLast?_eq_getLast g hne, hL])

lemma splitInclusive_append_nl (l rest : List Char) (hl : '\n' ∉ l) :
    splitInclusive (l ++ '\n' :: rest) = (l ++ ['\n']) :: splitInclusive rest := by
  induction l with
  | nil =>
    rw [List.nil_append, splitInclusive]
    rcases h : splitInclusive rest with _ | ⟨grp, grps⟩ <;> simp
  | cons c cs ih =>
    have hc : c ≠ '\n' := fun h => hl (h ▸ List.mem_cons_self c cs)
    have hcs : '\n' ∉ cs := fun h => hl (List.mem_cons_of_mem c h)
    rw [List.cons_append, splitInclusive, ih hcs]
    simp [hc]

lemma rustLines_flatten_length :
    ∀ out : List (List Char), (∀ l ∈ out, '\n' ∉ l) →
      (rustLines ((out.map (fun l => l ++ ['\n'])).flatten)).length = out.length := by
  intro out
  induction out with
  | nil => intro _; simp [rustLines, splitInclusive]
  | cons l ls ih =>
    intro h
    have hl : '\n' ∉ l := h l (List.mem_cons_self l ls)
    have hrest : ∀ x ∈ ls, '\n' ∉ x := fun x hx => h x (List.mem_cons_of_mem l hx)
    have hshape : (l ++ ['\n']) ++ (ls.map (fun x => x ++ ['\n'])).flatten
        = l ++ '\n' :: (ls.map (fun x => x ++ ['\n'])).flatten := by simp
    rw [List.map_cons, List.flatten_cons, hshape, rustLines,
      splitInclusive_append_nl _ _ hl]
    have hrec := ih hrest
    rw [rustLines] at hrec
    simpa using hrec

lemma filterLoop_cons (feat line : List Char) (rest : List (List Char))
    (skip : Bool) (bc : Int) :
    ∃ pl skip2 bc2,
      filterLoop feat (line :: rest) skip bc =
        (pl ++ ['\n']) ++ filterLoop feat rest skip2 bc2 ∧
      (pl = '#' :: ' ' :: line ∨ pl = line) := by
  by_cases hs : skip = true
  · subst hs
    exact ⟨'#' :: ' ' :: line, _, _, rfl, Or.inl rfl⟩
  · have hs' : skip = false := by simpa using hs
    subst hs'
    by_cases hre : re_start feat line = true
    · refine ⟨'#' :: ' ' :: line, true, bc, ?_, Or.inl rfl⟩
      simp [filterLoop, hre]
    · refine ⟨line, false, bc, ?_, Or.inr rfl⟩
      simp [filterLoop, hre]

lemma filterLoop_structure (feat : List Char) :
    ∀ (ls : List (List Char)) (skip : Bool) (bc : Int),
      ∃ out : List (List Char),
        filterLoop feat ls skip bc = (out.map (fun l => l ++ ['\n'])).flatten ∧
        out.length = ls.length ∧
        ∀ l ∈ out, l ∈ ls ∨ ∃ l' ∈ ls, l = '#' :: ' ' :: l' := by
  intro ls
  induction ls with
  | nil => intro skip bc; exact ⟨[], by simp [filterLoop], rfl, by simp⟩
  | cons line rest ih =>
    intro skip bc
    rcases filterLoop_cons feat line rest skip bc with ⟨pl, sk2, bc2, heq, hpl⟩
    rcases ih sk2 bc2 with ⟨out, h1, h2, h3⟩
    refine ⟨pl :: out, ?_, by simp [h2], ?_⟩
    · rw [heq, h1]; simp
    · intro l hl
      rcases List.mem_cons.mp hl with hl | hl
      · subst hl
        rcases hpl with h | h
        · right; exact ⟨line, List.mem_cons_self _ _, h⟩
        · left; rw [h]; exact List.mem_cons_self _ _
      · rcases h3 l hl with h | ⟨l', hl', he⟩
        · left; exact List.mem_cons_of_mem _ h
        · right; exact ⟨l', List.mem_cons_of_mem _ hl', he⟩

lemma filterLoop_skip_step (feat line : List Char) (rest : List (List Char))
    (bc : Int) :
    filterLoop feat (line :: rest) true bc =
      (('#' :: ' ' :: line) ++ ['\n']) ++
        filterLoop feat rest
          (if bc + braceBal line = 0 then false else true)
          (bc + braceBal line) := by
  have hopen : (if line.contains '\x7b' then bc + (line.count '\x7b' : Int) else bc)
      = bc + (line.count '\x7b' : Int) := by
    split
    · rfl
    · next h =>
      have h0 : line.count '\x7b' = 0 :=
        count_eq_zero_of_not_contains (by simpa using h)
      simp [h0]
  have hclose : ∀ b : Int,
      (if line.contains '\x7d' then b - (line.count '\x7d' : Int) else b)
        = b - (line.count '\x7d' : Int) := by
    intro b
    split
    · rfl
    · next h =>
      have h0 : line.count '\x7d' = 0 :=
        count_eq_zero_of_not_contains (by simpa using h)
      simp [h0]
  have hbal : bc + (line.count '\x7b' : Int) - (line.count '\x7d' : Int)
      = bc + braceBal line := by
    rw [braceBal]; ring
  simp only [filterLoop, if_true]
  rw [hopen, hclose, hbal]

lemma filterLoop_all_skip (feat : List Char) :
    ∀ (ls : List (List Char)) (d : Int),
      (∀ k ∈ List.range ls.length, d + ((ls.take (k + 1)).map braceBal).sum ≠ 0) →
      filterLoop feat ls true d =
        (ls.map (fun l => ('#' :: ' ' :: l) ++ ['\n'])).flatten := by
  intro ls
  induction ls with
  | nil => intro d _; simp [filterLoop]
  | cons line rest ih =>
    intro d h
    have h0 : d + braceBal line ≠ 0 := by
      have := h 0 (by simp)
      simpa using this
    rw [filterLoop_skip_step, if_neg h0, ih (d + braceBal line) ?_]
    · simp
    · intro k hk
      have hmem : k + 1 ∈ List.range (line :: rest).length := by
        simp at hk ⊢
        omega
      have hs := h (k + 1) hmem
      rw [List.take_succ_cons, List.map_cons, List.sum_cons] at hs
      intro hEq
      exact hs (by omega)

lemma filterLoop_noskip (feat line : List Char) (rest : List (List Char)) (bc : Int) :
    filterLoop feat (line :: rest) false bc =
      if re_start feat line then
        (('#' :: ' ' :: line) ++ ['\n']) ++ filterLoop feat rest true bc
      else (line ++ ['\n']) ++ filterLoop feat rest false bc := rfl

lemma filterLoopChecked_skip_eq (feat line : List Char)
    (rest : List (List Char)) (bc : Nat) :
    filterLoopChecked feat (line :: rest) true bc =
      if line.contains '\x7d' ∧
          (if line.contains '\x7b' then bc + line.count '\x7b' else bc) <
            line.count '\x7d'
        then none
      else
        (filterLoopChecked feat rest
          (if (if line.contains '\x7d' then
                (if line.contains '\x7b' then bc + line.count '\x7b' else bc) -
                  line.count '\x7d'
              else (if line.contains '\x7b' then bc + line.count '\x7b' else bc)) = 0
            then false else true)
          (if line.contains '\x7d' then
              (if line.contains '\x7b' then bc + line.count '\x7b' else bc) -
                line.count '\x7d'
            else (if line.contains '\x7b' then bc + line.count '\x7b' else bc))).map
          (fun t => (('#' :: ' ' :: line) ++ ['\n']) ++ t) := rfl

lemma filterLoopChecked_noskip (feat line : List Char)
    (rest : List (List Char)) (bc : Nat) :
    filterLoopChecked feat (line :: rest) false bc =
      if re_start feat line then
        (filterLoopChecked feat rest true bc).map
          (fun t => (('#' :: ' ' :: line) ++ ['\n']) ++ t)
      else
        (filterLoopChecked feat rest false bc).map
          (fun t => (line ++ ['\n']) ++ t) := rfl

lemma bc2_cast (line : List Char) (bc : Nat)
    (hnp : ¬(line.contains '\x7d' = true ∧
      (if line.contains '\x7b' then bc + line.count '\x7b' else bc) <
        line.count '\x7d')) :
    ((if line.contains '\x7d' then
        (if line.contains '\x7b' then bc + line.count '\x7b' else bc) -
          line.count '\x7d'
      else (if line.contains '\x7b' then bc + line.count '\x7b' else bc) : Nat) : Int)
      = (bc : Int) + braceBal line := by
  rw [braceBal]
  by_cases h2 : line.contains '\x7d' = true
  · have hle : line.count '\x7d' ≤
        (if line.contains '\x7b' then bc + line.count '\x7b' else bc) :=
      Nat.not_lt.mp (fun hlt => hnp ⟨h2, hlt⟩)
    rw [if_pos h2]
    by_cases h1 : line.contains '\x7b' = true
    · rw [if_pos h1] at hle ⊢
      omega
    · have hz : line.count '\x7b' = 0 :=
        count_eq_zero_of_not_contains (by simpa using h1)
      rw [if_neg h1] at hle ⊢
      omega
  · have hz : line.count '\x7d' = 0 :=
      count_eq_zero_of_not_contains (by simpa using h2)
    rw [if_neg h2]
    by_cases h1 : line.contains '\x7b' = true
    · rw [if_pos h1]
      omega
    · have hz1 : line.count '\x7b' = 0 :=
        count_eq_zero_of_not_contains (by simpa using h1)
      rw [if_neg h1]
      omega

lemma filterLoopChecked_agrees (feat : List Char) :
    ∀ (ls : List (List Char)) (skip : Bool) (bc : Nat) (out : List Char),
      filterLoopChecked feat ls skip bc = some out →
      out = filterLoop feat ls skip (bc : Int) := by
  intro ls
  induction ls with
  | nil =>
    intro skip bc out h
    rw [filterLoopChecked] at h
    injection h with h
    rw [filterLoop, ← h]
  | cons line rest ih =>
    intro skip bc out h
    by_cases hs : skip = true
    · subst hs
      rw [filterLoopChecked_skip_eq] at h
      by_cases hp : line.contains '\x7d' = true ∧
          (if line.contains '\x7b' then bc + line.count '\x7b' else bc) <
            line.count '\x7d'
      · rw [if_pos hp] at h
        exact absurd h (by simp)
      · rw [if_neg hp] at h
        rcases Option.map_eq_some'.mp h with ⟨t, ht, hout⟩
        have hit := ih _ _ _ ht
        have hcast := bc2_cast line bc hp
        have hiff : ((if line.contains '\x7d' then
              (if line.contains '\x7b' then bc + line.count '\x7b' else bc) -
                line.count '\x7d'
            else (if line.contains '\x7b' then bc + line.count '\x7b' else bc)) = 0)
            ↔ ((bc : Int) + braceBal line = 0) := by
          rw [← hcast]
          exact Nat.cast_eq_zero.symm
        rw [filterLoop_skip_step, ← hout, hit, hcast, if_congr hiff rfl rfl]
    · have hs' : skip = false := by simpa using hs
      subst hs'
      rw [filterLoopChecked_noskip] at h
      rw [filterLoop_noskip]
      by_cases hre : re_start feat line = true
      · rw [if_pos hre] at h ⊢
        rcases Option.map_eq_some'.mp h with ⟨t, ht, hout⟩
        rw [← hout, ih _ _ _ ht]
      · rw [if_neg hre] at h ⊢
        rcases Option.map_eq_some'.mp h with ⟨t, ht, hout⟩
        rw [← hout, ih _ _ _ ht]

lemma lastDoubleBrace_le {m : List Char} {k : Nat}
    (h : lastDoubleBrace m = some k) : k + 2 ≤ m.length := by
  induction m generalizing k with
  | nil => simp [lastDoubleBrace] at h
  | cons c rest ih =>
    rw [lastDoubleBrace] at h
    rcases hr : lastDoubleBrace rest with _ | k' <;> simp only [hr] at h
    · split at h
      · next hcond =>
        have hne : rest ≠ [] := by
          intro hnil
          rw [hnil] at hcond
          simp at hcond
        have : 1 ≤ rest.length := List.length_pos.mpr hne
        have hk : k = 0 := by
          have := h
          simp at this
          omega
        simp [hk]
        omega
      · simp at h
    · have hk : k = k' + 1 := by
        have := h
        simp at this
        omega
      have := ih hr
      simp [hk]
      omega

lemma tryAlt1_shape {u : List Char} {len : Nat} (h : tryAlt1 u = some len) :
    ∃ r, u = '\\' :: '\x7b' :: '\x7b' :: '#' :: r := by
  unfold tryAlt1 at h
  split at h
  · next r => exact ⟨r, rfl⟩
  · simp at h

lemma tryAlt1_le {u : List Char} {len : Nat} (h : tryAlt1 u = some len) :
    1 ≤ len ∧ len ≤ u.length := by
  rcases tryAlt1_shape h with ⟨r, rfl⟩
  rw [tryAlt1] at h
  rcases hd : lastDoubleBrace (r.takeWhile (fun c => c != '\n')) with _ | k <;>
    simp only [hd] at h
  · simp at h
  · have hlen : len = 4 + k + 2 := by
      have := h
      simp at this
      omega
    have h1 := lastDoubleBrace_le hd
    have h2 : (r.takeWhile (fun c => c != '\n')).length ≤ r.length :=
      List.Sublist.length_le (List.takeWhile_sublist _)
    simp [hlen]
    omega

lemma tryAlt2_le {u : List Char} {len : Nat} {k rest : List Char}
    (h : tryAlt2 u = some (len, k, rest)) : 1 ≤ len ∧ len ≤ u.length := by
  unfold tryAlt2 at h
  split at h
  · next r1 =>
    dsimp only [] at h
    split at h
    · next r3 hr3 =>
      split at h
      · simp at h
      · next hK =>
        split at h
        · next hguard =>
          have hlen : len = 2 + (r1.takeWhile isWs).length + 1 +
              (r3.takeWhile isAlnum).length +
              ((r3.drop (r3.takeWhile isAlnum).length).takeWhile isTargetClass).length
              + 2 := by
            have := h
            simp at this
            omega
          have hw0 : (r1.takeWhile isWs).length ≤ r1.length :=
            List.Sublist.length_le (List.takeWhile_sublist _)
          have hr1 : (r1.drop (r1.takeWhile isWs).length).length =
              r1.length - (r1.takeWhile isWs).length := List.length_drop _ _
          have hr3len : (r1.drop (r1.takeWhile isWs).length).length = r3.length + 1 := by
            rw [hr3]
            simp
          have hKle : (r3.takeWhile isAlnum).length ≤ r3.length :=
            List.Sublist.length_le (List.takeWhile_sublist _)
          have hr4 : (r3.drop (r3.takeWhile isAlnum).length).length =
              r3.length - (r3.takeWhile isAlnum).length := List.length_drop _ _
          have hpre : (2 : Nat) ≤
              ((r3.drop (r3.takeWhile isAlnum).length).drop
                ((r3.drop (r3.takeWhile isAlnum).length).takeWhile isTargetClass).length).length := by
            have hp := List.isPrefixOf_iff_prefix.mp hguard.2.2
            have := hp.length_le
            simpa using this
          have hdrop : ((r3.drop (r3.takeWhile isAlnum).length).drop
                ((r3.drop (r3.takeWhile isAlnum).length).takeWhile isTargetClass).length).length =
              (r3.drop (r3.takeWhile isAlnum).length).length -
                ((r3.drop (r3.takeWhile isAlnum).length).takeWhile isTargetClass).length :=
            List.length_drop _ _
          simp [hlen]
          omega
        · simp at h
    · simp at h
  · simp at h

lemma tryMatchAt_bounds {s : List Char} {i len : Nat} {pl : MatchPayload}
    (h : tryMatchAt s i = some (len, pl)) : 1 ≤ len ∧ i + len ≤ s.length := by
  unfold tryMatchAt at h
  have hdl : (s.drop i).length = s.length - i := List.length_drop i s
  rcases h1 : tryAlt1 (s.drop i) with _ | l1 <;> simp only [h1] at h
  · rcases h2 : tryAlt2 (s.drop i) with _ | ⟨l2, k2, r2⟩ <;> simp only [h2] at h
    · simp at h
    · have hl : len = l2 := by
        have := h
        simp at this
        omega
      have := tryAlt2_le h2
      subst hl
      omega
  · have hl : len = l1 := by
      have := h
      simp at this
      omega
    have := tryAlt1_le h1
    subst hl
    omega

lemma tryMatchAt_escaped_head {s : List Char} {i len : Nat}
    (h : tryMatchAt s i = some (len, MatchPayload.escaped)) :
    (s.drop i).head? = some '\\' := by
  unfold tryMatchAt at h
  rcases h1 : tryAlt1 (s.drop i) with _ | l1 <;> simp only [h1] at h
  · rcases h2 : tryAlt2 (s.drop i) with _ | ⟨l2, k2, r2⟩ <;> simp only [h2] at h
    · simp at h
    · simp at h
  · rcases tryAlt1_shape h1 with ⟨r, hr⟩
    rw [hr]
    rfl

lemma allMatchesGo_spec (s : List Char) :
    ∀ (fuel i : Nat) (m : RawMatch), m ∈ allMatchesGo s fuel i →
      i ≤ m.start ∧ m.start < m.stop ∧ m.stop ≤ s.length ∧
      tryMatchAt s m.start = some (m.stop - m.start, m.payload) ∧
      m.text = extract s m.start m.stop := by
  intro fuel
  induction fuel with
  | zero => intro i m hm; simp [allMatchesGo] at hm
  | succ fuel ih =>
    intro i m hm
    rw [allMatchesGo] at hm
    by_cases hi : i < s.length
    · rw [if_pos hi] at hm
      rcases ht : tryMatchAt s i with _ | ⟨len, pl⟩ <;> simp only [ht] at hm
      · have h := ih (i + 1) m hm
        exact ⟨by omega, h.2.1, h.2.2.1, h.2.2.2.1, h.2.2.2.2⟩
      · rcases List.mem_cons.mp hm with hm | hm
        · subst hm
          have hb := tryMatchAt_bounds ht
          refine ⟨le_refl i, by simp; omega, by simp; omega, ?_, rfl⟩
          simpa [Nat.add_sub_cancel_left] using ht
        · have h := ih (i + len) m hm
          exact ⟨by omega, h.2.1, h.2.2.1, h.2.2.2.1, h.2.2.2.2⟩
    · rw [if_neg hi] at hm
      simp at hm

lemma allMatchesGo_pairwise (s : List Char) :
    ∀ (fuel i : Nat),
      (allMatchesGo s fuel i).Pairwise (fun a b => a.stop ≤ b.start) := by
  intro fuel
  induction fuel with
  | zero => intro i; simp [allMatchesGo]
  | succ fuel ih =>
    intro i
    rw [allMatchesGo]
    by_cases hi : i < s.length
    · rw [if_pos hi]
      rcases ht : tryMatchAt s i with _ | ⟨len, pl⟩ <;> simp only [ht]
      · exact ih (i + 1)
      · refine List.Pairwise.cons ?_ (ih (i + len))
        intro b hb
        have hsp := allMatchesGo_spec s fuel (i + len) b hb
        simpa using hsp.1
    · rw [if_neg hi]
      exact List.Pairwise.nil

lemma allMatches_spec {s : List Char} {m : RawMatch} (hm : m ∈ allMatches s) :
    m.start < m.stop ∧ m.stop ≤ s.length ∧
    tryMatchAt s m.start = some (m.stop - m.start, m.payload) ∧
    m.text = extract s m.start m.stop := by
  have h := allMatchesGo_spec s (s.length + 1) 0 m hm
  exact ⟨h.2.1, h.2.2.1, h.2.2.2.1, h.2.2.2.2⟩

lemma allMatches_pairwise (s : List Char) :
    (allMatches s).Pairwise (fun a b => a.stop ≤ b.start) :=
  allMatchesGo_pairwise s (s.length + 1) 0

lemma from_capture_fields {m : RawMatch} {l : Link}
    (h : Link.from_capture m = some l) :
    l.start_index = m.start ∧ l.end_index = m.stop ∧ l.link_text = m.text := by
  unfold Link.from_capture at h
  rcases Option.map_eq_some'.mp h with ⟨lnk, _, hl⟩
  subst hl
  exact ⟨rfl, rfl, rfl⟩

lemma from_capture_escaped {m : RawMatch} (h : m.payload = MatchPayload.escaped) :
    Link.from_capture m = none := by
  unfold Link.from_capture
  rw [h]
  rfl

lemma from_capture_unknown {m : RawMatch} {k rest : List Char}
    (h : m.payload = MatchPayload.candidate k rest)
    (hk : ¬ k = "includehidetest".data) :
    Link.from_capture m = none := by
  unfold Link.from_capture
  rw [h]
  rcases hf : firstWsToken rest with _ | pth <;> simp [hf, hk]

lemma find_links_mem {s : List Char} {l : Link} (h : l ∈ find_links s) :
    ∃ m, m ∈ allMatches s ∧ Link.from_capture m = some l := by
  rcases List.mem_filterMap.mp h with ⟨m, hm, hfm⟩
  exact ⟨m, hm, hfm⟩

lemma find_links_spec {s : List Char} {l : Link} (h : l ∈ find_links s) :
    l.start_index < l.end_index ∧ l.end_index ≤ s.length := by
  rcases find_links_mem h with ⟨m, hm, hfm⟩
  have hf := from_capture_fields hfm
  have ha := allMatches_spec hm
  omega

lemma find_links_pairwise (s : List Char) :
    (find_links s).Pairwise (fun a b => a.end_index ≤ b.start_index) := by
  rw [find_links, List.pairwise_filterMap]
  refine List.Pairwise.imp ?_ (allMatches_pairwise s)
  intro a b hab x hx y hy
  have h1 := from_capture_fields (Option.mem_def.mp hx)
  have h2 := from_capture_fields (Option.mem_def.mp hy)
  omega

lemma pairwise_mem_cases {α : Type} {R : α → α → Prop} :
    ∀ (l : List α), l.Pairwise R →
      ∀ a ∈ l, ∀ b ∈ l, a = b ∨ R a b ∨ R b a := by
  intro l
  induction l with
  | nil => intro _ a ha; simp at ha
  | cons x xs ih =>
    intro hp a ha b hb
    have hhead : ∀ y ∈ xs, R x y := fun y hy => List.rel_of_pairwise_cons hp hy
    have htail : xs.Pairwise R := List.Pairwise.of_cons hp
    rcases List.mem_cons.mp ha with ha1 | ha2
    · rcases List.mem_cons.mp hb with hb1 | hb2
      · subst ha1; subst hb1; exact Or.inl rfl
      · subst ha1; exact Or.inr (Or.inl (hhead b hb2))
    · rcases List.mem_cons.mp hb with hb1 | hb2
      · subst hb1; exact Or.inr (Or.inr (hhead a ha2))
      · exact ih htail a ha2 b hb2

lemma replaceLoop_acc (fs : List Char → Except IOErr (List Char)) (base s : List Char) :
    ∀ (links : List Link) (prev : Nat) (acc out : List Char),
      replaceLoop fs base s links prev acc = Except.ok out →
      ∃ t, out = acc ++ t := by
  intro links
  induction links with
  | nil =>
    intro prev acc out h
    rw [replaceLoop] at h
    refine ⟨s.drop prev, ?_⟩
    injection h with h
    exact h.symm
  | cons l rest ih =>
    intro prev acc out h
    rw [replaceLoop] at h
    rcases hr : l.render_with_path fs base with e | r <;> simp only [hr] at h
    · exact absurd h (by simp)
    · rcases ih l.end_index (acc ++ extract s prev l.start_index ++ r) out h with ⟨t, ht⟩
      exact ⟨extract s prev l.start_index ++ r ++ t, by rw [ht]; simp⟩

lemma render_with_path_congr {fs fs' : List Char → Except IOErr (List Char)}
    {base : List Char} {l : Link}
    (h : fs (pathJoin base (linkPath l.link)) = fs' (pathJoin base (linkPath l.link))) :
    l.render_with_path fs base = l.render_with_path fs' base := by
  rcases l with ⟨si, ei, lk, lt⟩
  rcases lk with ⟨p⟩
  simp only [Link.render_with_path, linkPath] at h ⊢
  rw [h]

lemma replaceLoop_congr (fs fs' : List Char → Except IOErr (List Char)) (base s : List Char) :
    ∀ (links : List Link) (prev : Nat) (acc : List Char),
      (∀ l ∈ links, l.render_with_path fs base = l.render_with_path fs' base) →
      replaceLoop fs base s links prev acc = replaceLoop fs' base s links prev acc := by
  intro links
  induction links with
  | nil => intro prev acc _; rw [replaceLoop, replaceLoop]
  | cons l rest ih =>
    intro prev acc h
    rw [replaceLoop, replaceLoop, ← h l (List.mem_cons_self l rest)]
    rcases hr : l.render_with_path fs base with e | r <;> simp only [hr]
    exact ih _ _ (fun x hx => h x (List.mem_cons_of_mem l hx))

lemma replaceLoop_splice (fs : List Char → Except IOErr (List Char)) (base s : List Char) :
    ∀ (links : List Link) (results : List (List Char)) (prev : Nat) (acc : List Char),
      List.Forall₂ (fun l r => l.render_with_path fs base = Except.ok r) links results →
      replaceLoop fs base s links prev acc =
        Except.ok (acc ++ splice s links results prev) := by
  intro links results prev acc h
  induction h generalizing prev acc with
  | nil => rw [replaceLoop, splice]
  | @cons l r ls rs hlr htail ih =>
    rw [replaceLoop, splice, hlr]
    dsimp only []
    rw [ih]
    simp [List.append_assoc]

lemma replaceLoop_error (fs : List Char → Except IOErr (List Char)) (base s : List Char)
    (e : IOErr) (lf : Link) :
    ∀ (done : List Link) (restL : List Link) (prev : Nat) (acc : List Char),
      (∀ d ∈ done, ∃ r, d.render_with_path fs base = Except.ok r) →
      lf.render_with_path fs base = Except.error e →
      replaceLoop fs base s (done ++ lf :: restL) prev acc = Except.error e := by
  intro done
  induction done with
  | nil =>
    intro restL prev acc _ hf
    rw [List.nil_append, replaceLoop, hf]
  | cons d ds ih =>
    intro restL prev acc hok hf
    rcases hok d (List.mem_cons_self d ds) with ⟨r, hr⟩
    rw [List.cons_append, replaceLoop, hr]
    dsimp only []
    exact ih restL d.end_index _ (fun x hx => hok x (List.mem_cons_of_mem d hx)) hf

lemma drop_eq_extract_append {s : List Char} {a b : Nat} (hab : a ≤ b) :
    s.drop a = extract s a b ++ s.drop b := by
  have e3 : a + (b - a) = b := by omega
  rw [extract]
  conv_lhs => rw [← List.take_append_drop (b - a) (s.drop a)]
  rw [List.drop_drop, e3]

lemma extract_eq_extract_append {s : List Char} {c a b d : Nat}
    (hca : c ≤ a) (hab : a ≤ b) (hbd : b ≤ d) :
    extract s c d = extract s c a ++ extract s a b ++ extract s b d := by
  rw [extract, extract, extract, extract]
  have h1 : d - c = (a - c) + ((b - a) + (d - b)) := by omega
  have e1 : c + (a - c) = a := by omega
  have e2 : c + (a - c) + (b - a) = b := by omega
  rw [h1, List.take_add, List.take_add, List.drop_drop, List.drop_drop, e2, e1]
  simp [List.append_assoc]

lemma replaceLoop_gap (fs : List Char → Except IOErr (List Char)) (base s : List Char) :
    ∀ (links : List Link) (prev : Nat) (acc out : List Char) (a b : Nat),
      replaceLoop fs base s links prev acc = Except.ok out →
      links.Pairwise (fun x y => x.end_index ≤ y.start_index) →
      (∀ l ∈ links, prev ≤ l.start_index) →
      prev ≤ a → a ≤ b →
      (∀ l ∈ links, b ≤ l.start_index ∨ l.end_index ≤ a) →
      ∃ p q, out = p ++ extract s a b ++ q := by
  intro links
  induction links with
  | nil =>
    intro prev acc out a b h _ _ hpa hab _
    rw [replaceLoop] at h
    injection h with h
    refine ⟨acc ++ extract s prev a, s.drop b, ?_⟩
    rw [← h, drop_eq_extract_append hpa, drop_eq_extract_append hab]
    simp [List.append_assoc]
  | cons l rest ih =>
    intro prev acc out a b h hpw hprev hpa hab hdisj
    rw [replaceLoop] at h
    rcases hr : l.render_with_path fs base with e | r <;> simp only [hr] at h
    · exact absurd h (by simp)
    · have hup : ∀ x ∈ rest, l.end_index ≤ x.start_index :=
        fun x hx => List.rel_of_pairwise_cons hpw hx
      rcases hdisj l (List.mem_cons_self l rest) with hbl | hla
      · rcases replaceLoop_acc fs base s rest l.end_index _ out h with ⟨t, ht⟩
        refine ⟨acc ++ extract s prev a, extract s b l.start_index ++ r ++ t, ?_⟩
        rw [ht, extract_eq_extract_append hpa hab hbl]
        simp [List.append_assoc]
      · exact ih l.end_index _ out a b h (List.Pairwise.of_cons hpw) hup hla hab
          (fun x hx => hdisj x (List.mem_cons_of_mem l hx))

lemma none_capture_start_ne {s : List Char} {m : RawMatch}
    (hm : m ∈ allMatches s) (hnone : Link.from_capture m = none) :
    ∀ l ∈ find_links s, ¬ l.start_index = m.start := by
  intro l hl
  rcases find_links_mem hl with ⟨m', hm', hfm'⟩
  have hf := from_capture_fields hfm'
  have hne : ¬ m' = m := by
    intro hEq
    rw [hEq, hnone] at hfm'
    exact Option.noConfusion hfm'
  have ha' := allMatches_spec hm'
  have ha := allMatches_spec hm
  rcases pairwise_mem_cases (allMatches s) (allMatches_pairwise s) m' hm' m hm with
    hEq | hR | hR
  · exact absurd hEq hne
  · omega
  · omega

lemma none_capture_disjoint {s : List Char} {m : RawMatch}
    (hm : m ∈ allMatches s) (hnone : Link.from_capture m = none) :
    ∀ l ∈ find_links s, m.stop ≤ l.start_index ∨ l.end_index ≤ m.start := by
  intro l hl
  rcases find_links_mem hl with ⟨m', hm', hfm'⟩
  have hf := from_capture_fields hfm'
  have hne : ¬ m' = m := by
    intro hEq
    rw [hEq, hnone] at hfm'
    exact Option.noConfusion hfm'
  rcases pairwise_mem_cases (allMatches s) (allMatches_pairwise s) m' hm' m hm with
    hEq | hR | hR
  · exact absurd hEq hne
  · right; omega
  · left; omega

lemma filterLoop_out_no_nl {contents : List Char} {out : List (List Char)}
    (h3 : ∀ l ∈ out, l ∈ rustLines contents ∨
      ∃ l' ∈ rustLines contents, l = '#' :: ' ' :: l') :
    ∀ l ∈ out, '\n' ∉ l := by
  intro l hl
  rcases h3 l hl with h | ⟨l', hl', he⟩
  · exact rustLines_no_nl contents l h
  · subst he
    intro hmem
    rcases List.mem_cons.mp hmem with h1 | h1
    · exact absurd h1 (by decide)
    · rcases List.mem_cons.mp h1 with h2 | h2
      · exact absurd h2 (by decide)
      · exact rustLines_no_nl contents l' hl' h2

/-- C1: splice correctness of the substitution engine — when every
recognized directive resolves successfully, `replace_all` returns the
interleaving of the verbatim inter-directive source spans with the
resolver outputs, with the cursor advanced to each directive's end
index, and with zero directives the output is byte-identical to the
input. -/
theorem splice_correctness (fs : List Char → Except IOErr (List Char))
    (base s : List Char) (results : List (List Char))
    (h : List.Forall₂ (fun l r => l.render_with_path fs base = Except.ok r)
      (find_links s) results) :
    replace_all fs base s = Except.ok (splice s (find_links s) results 0) ∧
    (find_links s = [] → replace_all fs base s = Except.ok s) := by
  constructor
  · rw [replace_all, replaceLoop_splice fs base s (find_links s) results 0 [] h]
    simp
  · intro hnil
    rw [replace_all, hnil, replaceLoop]
    simp

/-- Witness for C1 at a concrete one-directive input whose target file
resolves. -/
theorem splice_correctness_witness :
    replace_all
        (fun p => if p = "book/f.rs".data then Except.ok "x\n".data
          else Except.error IOErr.notFound)
        "book".data "A \x7b\x7b#includehidetest f.rs\x7d\x7d B".data =
      Except.ok (splice "A \x7b\x7b#includehidetest f.rs\x7d\x7d B".data
        (find_links "A \x7b\x7b#includehidetest f.rs\x7d\x7d B".data)
        ["x\n".data] 0) ∧
    (find_links "A \x7b\x7b#includehidetest f.rs\x7d\x7d B".data = [] →
      replace_all
          (fun p => if p = "book/f.rs".data then Except.ok "x\n".data
            else Except.error IOErr.notFound)
          "book".data "A \x7b\x7b#includehidetest f.rs\x7d\x7d B".data =
        Except.ok "A \x7b\x7b#includehidetest f.rs\x7d\x7d B".data) :=
  splice_correctness _ "book".data "A \x7b\x7b#includehidetest f.rs\x7d\x7d B".data
    ["x\n".data]
    (by
      rw [show find_links "A \x7b\x7b#includehidetest f.rs\x7d\x7d B".data =
        [{ start_index := 2, end_index := 27,
           link := LinkType.IncludeHideTest "f.rs".data,
           link_text := "\x7b\x7b#includehidetest f.rs\x7d\x7d".data }] from rfl]
      exact List.Forall₂.cons (by rfl) List.Forall₂.nil)

/-- C2 counterexample: two directives naming different missing files
produce identical error values, so the returned error identifies
neither the offending path nor the directive's raw text; the context
that would attach them is commented out in the source. -/
theorem missing_file_error_counterexample :
    replace_all (fun _ => Except.error IOErr.notFound) []
        "\x7b\x7b#includehidetest missing.rs\x7d\x7d".data =
      Except.error IOErr.notFound ∧
    replace_all (fun _ => Except.error IOErr.notFound) []
        "\x7b\x7b#includehidetest other.rs\x7d\x7d".data =
      Except.error IOErr.notFound ∧
    ¬ ("\x7b\x7b#includehidetest missing.rs\x7d\x7d".data =
        "\x7b\x7b#includehidetest other.rs\x7d\x7d".data) :=
  ⟨rfl, rfl, by decide⟩

/-- C2 amended: a directive whose target file cannot be read makes the
whole `replace_all` call return an error — no partial output is
returned as success — and the error is the file loader's error
propagated unchanged, carrying neither the offending path nor the
directive's raw text. -/
theorem missing_file_aborts (fs : List Char → Except IOErr (List Char))
    (base s : List Char) (done restL : List Link) (lf : Link) (e : IOErr)
    (hsplit : find_links s = done ++ lf :: restL)
    (hok : ∀ d ∈ done, ∃ r, d.render_with_path fs base = Except.ok r)
    (hfail : lf.render_with_path fs base = Except.error e) :
    replace_all fs base s = Except.error e := by
  rw [replace_all, hsplit]
  exact replaceLoop_error fs base s e lf done restL 0 [] hok hfail

/-- Witness for the amended C2 at a concrete input whose single
directive names a file the loader cannot find. -/
theorem missing_file_aborts_witness :
    replace_all (fun _ => Except.error IOErr.notFound) "src".data
        "pre \x7b\x7b#includehidetest missing.rs\x7d\x7d post".data =
      Except.error IOErr.notFound :=
  missing_file_aborts (fun _ => Except.error IOErr.notFound) "src".data
    "pre \x7b\x7b#includehidetest missing.rs\x7d\x7d post".data [] []
    { start_index := 4, end_index := 35,
      link := LinkType.IncludeHideTest "missing.rs".data,
      link_text := "\x7b\x7b#includehidetest missing.rs\x7d\x7d".data }
    IOErr.notFound rfl (by simp) rfl

/-- C3 counterexample: on the six-line scenario input the filter
prefixes four lines, not three. -/
theorem brace_scenario_counterexample :
    (rustLines (filter_features
        "fn a() \x7b\x7d\n#[cfg(feature = \"test\")]\nfn b() \x7b\n    assert!(true);\n\x7d\nfn c() \x7b\x7d".data
        "test".data)).countP (fun l => ("# ".data).isPrefixOf l) = 4 ∧
    ¬ ((rustLines (filter_features
        "fn a() \x7b\x7d\n#[cfg(feature = \"test\")]\nfn b() \x7b\n    assert!(true);\n\x7d\nfn c() \x7b\x7d".data
        "test".data)).countP (fun l => ("# ".data).isPrefixOf l) = 3) := by
  constructor
  · decide
  · decide

/-- C3 amended: filtering the six-line scenario with marker `test`
suppresses (prefix-comments) exactly the four lines from the attribute
line through the closing brace of `b`, and emits the first and last
lines untouched. -/
theorem brace_scenario_output :
    filter_features
        "fn a() \x7b\x7d\n#[cfg(feature = \"test\")]\nfn b() \x7b\n    assert!(true);\n\x7d\nfn c() \x7b\x7d".data
        "test".data =
      "fn a() \x7b\x7d\n# #[cfg(feature = \"test\")]\n# fn b() \x7b\n#     assert!(true);\n# \x7d\nfn c() \x7b\x7d\n".data := by
  decide

/-- C4 counterexample: a marker line with no braces followed by two
brace-free lines suppresses only the first following line; the third
line is emitted without the suppression prefix, so the block does not
extend to the end of the input. -/
theorem markerless_brace_counterexample :
    filter_features "#[cfg(feature = \"test\")]\nfoo\nbar".data "test".data =
      "# #[cfg(feature = \"test\")]\n# foo\nbar\n".data ∧
    ¬ (∀ l ∈ rustLines (filter_features
          "#[cfg(feature = \"test\")]\nfoo\nbar".data "test".data),
        ("# ".data).isPrefixOf l = true) := by
  constructor
  · decide
  · decide

/-- C4 amended: a marker line opens a suppression block that stays open
exactly while the running brace balance of the following lines is
nonzero; when every prefix balance after the marker is nonzero the
block never closes and every line through the end of the input is
emitted with the suppression prefix. -/
theorem marker_unbounded_suppression (s marker m : List Char)
    (rest : List (List Char))
    (h1 : rustLines s = m :: rest) (h2 : re_start marker m = true)
    (h3 : ∀ k ∈ List.range rest.length,
      ((rest.take (k + 1)).map braceBal).sum ≠ 0) :
    filter_features s marker =
      ((m :: rest).map (fun l => ('#' :: ' ' :: l) ++ ['\n'])).flatten := by
  rw [filter_features, h1, filterLoop_noskip, if_pos h2,
    filterLoop_all_skip marker rest 0 ?_]
  · simp
  · intro k hk
    have hks := h3 k hk
    simpa using hks

/-- Witness for the amended C4: a marker followed by an unmatched
closing brace suppresses every following line to the end of input. -/
theorem marker_unbounded_suppression_witness :
    filter_features "#[cfg(feature = \"test\")]\n\x7d\nend".data "test".data =
      (("#[cfg(feature = \"test\")]".data :: ["\x7d".data, "end".data]).map
        (fun l => ('#' :: ' ' :: l) ++ ['\n'])).flatten :=
  marker_unbounded_suppression "#[cfg(feature = \"test\")]\n\x7d\nend".data
    "test".data "#[cfg(feature = \"test\")]".data ["\x7d".data, "end".data]
    (by decide) (by decide) (by decide)

/-- C5: escape preservation — an escaped directive match is never
turned into a `Link` by the scanner, no emitted link starts where it
does, and the result of `replace_all` depends on the filesystem only at
the joined paths of the emitted links, so the escaped token's presence
triggers no file read. -/
theorem escape_preservation (s : List Char) (m : RawMatch)
    (fs fs' : List Char → Except IOErr (List Char)) (base : List Char)
    (hm : m ∈ allMatches s) (he : m.payload = MatchPayload.escaped)
    (hagree : ∀ l ∈ find_links s,
      fs (pathJoin base (linkPath l.link)) = fs' (pathJoin base (linkPath l.link))) :
    Link.from_capture m = none ∧
    (∀ l ∈ find_links s, ¬ l.start_index = m.start) ∧
    replace_all fs base s = replace_all fs' base s := by
  refine ⟨from_capture_escaped he, none_capture_start_ne hm (from_capture_escaped he), ?_⟩
  rw [replace_all, replace_all]
  exact replaceLoop_congr fs fs' base s (find_links s) 0 []
    (fun l hl => render_with_path_congr (hagree l hl))

/-- Witness for C5 at a concrete input holding one escaped directive
and nothing else, under two filesystems that disagree everywhere. -/
theorem escape_preservation_witness :
    Link.from_capture
        (RawMatch.mk 2 28 MatchPayload.escaped
          "\\\x7b\x7b#includehidetest a.rs\x7d\x7d".data) = none ∧
    (∀ l ∈ find_links "x \\\x7b\x7b#includehidetest a.rs\x7d\x7d y".data,
      ¬ l.start_index = 2) ∧
    replace_all (fun _ => Except.ok []) "b".data
        "x \\\x7b\x7b#includehidetest a.rs\x7d\x7d y".data =
      replace_all (fun _ => Except.error IOErr.notFound) "b".data
        "x \\\x7b\x7b#includehidetest a.rs\x7d\x7d y".data :=
  escape_preservation "x \\\x7b\x7b#includehidetest a.rs\x7d\x7d y".data
    (RawMatch.mk 2 28 MatchPayload.escaped
      "\\\x7b\x7b#includehidetest a.rs\x7d\x7d".data)
    (fun _ => Except.ok []) (fun _ => Except.error IOErr.notFound) "b".data
    (by decide) rfl
    (by simp [show find_links "x \\\x7b\x7b#includehidetest a.rs\x7d\x7d y".data =
      ([] : List Link) from rfl])

/-- C6: unknown-kind pass-through — a match whose kind capture is not
`includehidetest` yields no `Link` and is not an error, no emitted link
starts at it (so no file read is attempted for it), its matched text is
the exact source span, and whenever `replace_all` succeeds that text
appears verbatim in the output. -/
theorem unknown_kind_passthrough (s : List Char) (m : RawMatch)
    (k rest : List Char) (fs : List Char → Except IOErr (List Char))
    (base out : List Char)
    (hm : m ∈ allMatches s) (hk : m.payload = MatchPayload.candidate k rest)
    (hkk : ¬ k = "includehidetest".data)
    (hout : replace_all fs base s = Except.ok out) :
    Link.from_capture m = none ∧
    (∀ l ∈ find_links s, ¬ l.start_index = m.start) ∧
    m.text = extract s m.start m.stop ∧
    ∃ p q, out = p ++ m.text ++ q := by
  have hnone := from_capture_unknown hk hkk
  have ha := allMatches_spec hm
  refine ⟨hnone, none_capture_start_ne hm hnone, ha.2.2.2, ?_⟩
  rw [replace_all] at hout
  have hgap := replaceLoop_gap fs base s (find_links s) 0 [] out m.start m.stop hout
    (find_links_pairwise s) (fun l _ => Nat.zero_le _) (Nat.zero_le _)
    (le_of_lt ha.1) (none_capture_disjoint hm hnone)
  rw [ha.2.2.2]
  exact hgap

/-- Witness for C6 at a concrete input holding a single unknown-kind
directive, whose raw text survives verbatim. -/
theorem unknown_kind_passthrough_witness :
    Link.from_capture
        (RawMatch.mk 0 24
          (MatchPayload.candidate "unknownkind".data "foo.txt".data)
          "\x7b\x7b#unknownkind foo.txt\x7d\x7d".data) = none ∧
    (∀ l ∈ find_links "\x7b\x7b#unknownkind foo.txt\x7d\x7d".data,
      ¬ l.start_index = 0) ∧
    (RawMatch.mk 0 24
        (MatchPayload.candidate "unknownkind".data "foo.txt".data)
        "\x7b\x7b#unknownkind foo.txt\x7d\x7d".data).text =
      extract "\x7b\x7b#unknownkind foo.txt\x7d\x7d".data 0 24 ∧
    ∃ p q, "\x7b\x7b#unknownkind foo.txt\x7d\x7d".data =
      p ++ (RawMatch.mk 0 24
        (MatchPayload.candidate "unknownkind".data "foo.txt".data)
        "\x7b\x7b#unknownkind foo.txt\x7d\x7d".data).text ++ q :=
  unknown_kind_passthrough "\x7b\x7b#unknownkind foo.txt\x7d\x7d".data
    (RawMatch.mk 0 24
      (MatchPayload.candidate "unknownkind".data "foo.txt".data)
      "\x7b\x7b#unknownkind foo.txt\x7d\x7d".data)
    "unknownkind".data "foo.txt".data
    (fun _ => Except.error IOErr.notFound) "base".data
    "\x7b\x7b#unknownkind foo.txt\x7d\x7d".data
    (by decide) rfl (by decide) rfl

/-- C7: the brace-depth claim fails on the code as built — the
source's `brace_count` is a `usize`, so on the claim's own scenario, a
line inside a skipped block closing more braces than were opened, the
subtraction underflows and an overflow-checked build panics, modelled
by `filter_features_checked` returning `none` on the concrete failing
input; every run of the checked code that does return agrees with the
total model `filter_features`, which captures only the non-panicking
(release, wrapping) executions. -/
theorem brace_depth_underflow_panics :
    filter_features_checked "#[cfg(feature = \"test\")]\n\x7d".data "test".data =
      none ∧
    ∀ contents feature_name out : List Char,
      filter_features_checked contents feature_name = some out →
      out = filter_features contents feature_name := by
  constructor
  · rfl
  · intro contents feature_name out h
    rw [filter_features]
    exact filterLoopChecked_agrees feature_name (rustLines contents) false 0 out h

/-- Witness for C7's theorem: the agreement half applied at a concrete
input on which the checked code returns. -/
theorem brace_depth_underflow_panics_witness :
    "ok\n".data = filter_features "ok".data "test".data :=
  brace_depth_underflow_panics.2 "ok".data "test".data "ok\n".data rfl

/-- C8: trailing-newline normalization — the output of
`filter_features` is the concatenation of its processed lines, each
followed by exactly one newline character, one output line per input
line, including the final line even when the input lacked a trailing
newline. -/
theorem trailing_newline_normalization (contents feature_name : List Char) :
    ∃ out : List (List Char),
      (∀ l ∈ out, '\n' ∉ l) ∧
      filter_features contents feature_name =
        (out.map (fun l => l ++ ['\n'])).flatten ∧
      out.length = (rustLines contents).length := by
  rcases filterLoop_structure feature_name (rustLines contents) false 0 with
    ⟨out, hf1, hf2, hf3⟩
  exact ⟨out, filterLoop_out_no_nl hf3, by rw [filter_features, hf1], hf2⟩

/-- Witness for C8 at a concrete input without a trailing newline. -/
theorem trailing_newline_normalization_witness :
    ∃ out : List (List Char),
      (∀ l ∈ out, '\n' ∉ l) ∧
      filter_features "alpha\nbeta".data "m".data =
        (out.map (fun l => l ++ ['\n'])).flatten ∧
      out.length = (rustLines "alpha\nbeta".data).length :=
  trailing_newline_normalization "alpha\nbeta".data "m".data

/-- C9: scanner span invariant — every link emitted by `find_links`
satisfies `start_index < end_index ≤ length`, and the emitted sequence
is ordered left to right and non-overlapping. -/
theorem scanner_span_invariant (s : List Char) :
    (∀ l ∈ find_links s, l.start_index < l.end_index ∧ l.end_index ≤ s.length) ∧
    (find_links s).Pairwise (fun a b => a.end_index ≤ b.start_index) :=
  ⟨fun _ hl => find_links_spec hl, find_links_pairwise s⟩

/-- Witness for C9 at a concrete input with two directives. -/
theorem scanner_span_invariant_witness :
    (∀ l ∈ find_links
        "\x7b\x7b#includehidetest a.rs\x7d\x7d \x7b\x7b#includehidetest b.rs\x7d\x7d".data,
      l.start_index < l.end_index ∧ l.end_index ≤
        ("\x7b\x7b#includehidetest a.rs\x7d\x7d \x7b\x7b#includehidetest b.rs\x7d\x7d".data).length) ∧
    (find_links
        "\x7b\x7b#includehidetest a.rs\x7d\x7d \x7b\x7b#includehidetest b.rs\x7d\x7d".data).Pairwise
      (fun a b => a.end_index ≤ b.start_index) :=
  scanner_span_invariant
    "\x7b\x7b#includehidetest a.rs\x7d\x7d \x7b\x7b#includehidetest b.rs\x7d\x7d".data

/-- C10: escaped directives keep their backslash — the matched text of
an escaped match is the exact source span, begins with the escape
backslash (never stripped), and appears verbatim, byte for byte, in
every successful output of `replace_all`. -/
theorem escaped_kept_verbatim (s : List Char) (m : RawMatch)
    (fs : List Char → Except IOErr (List Char)) (base out : List Char)
    (hm : m ∈ allMatches s) (he : m.payload = MatchPayload.escaped)
    (hout : replace_all fs base s = Except.ok out) :
    m.text = extract s m.start m.stop ∧
    m.text.head? = some '\\' ∧
    ∃ p q, out = p ++ m.text ++ q := by
  have ha := allMatches_spec hm
  refine ⟨ha.2.2.2, ?_, ?_⟩
  · have ht := ha.2.2.1
    rw [he] at ht
    have hh := tryMatchAt_escaped_head ht
    obtain ⟨n, hn⟩ : ∃ n, m.stop - m.start = n + 1 :=
      ⟨m.stop - m.start - 1, by omega⟩
    rw [ha.2.2.2, extract, hn]
    rcases hd : s.drop m.start with _ | ⟨c, cs⟩
    · rw [hd] at hh
      simp at hh
    · rw [hd] at hh
      simp at hh
      simp [hh]
  · rw [replace_all] at hout
    have hgap := replaceLoop_gap fs base s (find_links s) 0 [] out m.start m.stop hout
      (find_links_pairwise s) (fun l _ => Nat.zero_le _) (Nat.zero_le _)
      (le_of_lt ha.1) (none_capture_disjoint hm (from_capture_escaped he))
    rw [ha.2.2.2]
    exact hgap

/-- Witness for C10 at a concrete input holding one escaped directive;
the output keeps the token with its backslash. -/
theorem escaped_kept_verbatim_witness :
    (RawMatch.mk 2 9 MatchPayload.escaped "\\\x7b\x7b#a\x7d\x7d".data).text =
      extract "u \\\x7b\x7b#a\x7d\x7d v".data 2 9 ∧
    (RawMatch.mk 2 9 MatchPayload.escaped "\\\x7b\x7b#a\x7d\x7d".data).text.head? =
      some '\\' ∧
    ∃ p q, "u \\\x7b\x7b#a\x7d\x7d v".data =
      p ++ (RawMatch.mk 2 9 MatchPayload.escaped "\\\x7b\x7b#a\x7d\x7d".data).text ++ q :=
  escaped_kept_verbatim "u \\\x7b\x7b#a\x7d\x7d v".data
    (RawMatch.mk 2 9 MatchPayload.escaped "\\\x7b\x7b#a\x7d\x7d".data)
    (fun _ => Except.error IOErr.notFound) "b".data "u \\\x7b\x7b#a\x7d\x7d v".data
    (by decide) rfl rfl
